import Mathlib

/-!
Verification of the vimix-solana-airdrop merkle-airdrop core.

Shallow embedding of:
  - the SHA-256 hash used by the generator (crypto-js SHA256 over raw bytes);
  - the leaf encoder `leavesData` (Buffer.alloc(41) / writeUInt8 / set /
    writeBigUint64LE semantics, including the RangeError paths of the Node
    buffer writers);
  - the merkletreejs tree construction with `sortPairs: true` (createHashes,
    getRoot, getProof) as driven by `GenMerkleTree`;
  - the client claim loops of `claimWithoutSignature` and
    `claimAirdropWithReceiver` (lookup-table check, claim-record existence
    check, per-phase sendTransaction with the accumulating instruction list);
  - the pool-creation transaction assembly of `CreateAirdropPool`.

Bytes are lists of naturals (each byte a value below 256 at the points where
the source writes them); buffers, hex strings and base58 addresses are all
represented by their underlying byte lists.
-/

namespace Airdrop

/-- A byte string: the contents of a JS Buffer / Uint8Array. -/
abbrev Bytes := List Nat

/-! ## Lexicographic byte order (Buffer.compare) -/

/-- Buffer.compare a b is not positive: lexicographic unsigned byte order,
with a strict prefix ordered before its extensions. -/
def byteListLe : Bytes → Bytes → Bool
  | [], _ => true
  | _ :: _, [] => false
  | a :: as, b :: bs => if a < b then true else if b < a then false else byteListLe as bs

theorem byteListLe_total : ∀ a b : Bytes, byteListLe a b = true ∨ byteListLe b a = true
  | [], _ => Or.inl rfl
  | _ :: _, [] => Or.inr rfl
  | a :: as, b :: bs => by
    by_cases hab : a < b
    · exact Or.inl (by simp [byteListLe, hab])
    · by_cases hba : b < a
      · exact Or.inr (by simp [byteListLe, hba, hab])
      · have : a = b := Nat.le_antisymm (Nat.le_of_not_lt hba) (Nat.le_of_not_lt hab)
        subst this
        rcases byteListLe_total as bs with h | h
        · exact Or.inl (by simp [byteListLe, h])
        · exact Or.inr (by simp [byteListLe, h])

theorem byteListLe_antisymm : ∀ a b : Bytes,
    byteListLe a b = true → byteListLe b a = true → a = b
  | [], [], _, _ => rfl
  | [], _ :: _, _, h => by simp [byteListLe] at h
  | _ :: _, [], h, _ => by simp [byteListLe] at h
  | a :: as, b :: bs, h1, h2 => by
    by_cases hab : a < b
    · simp [byteListLe, hab, Nat.lt_asymm hab] at h2
    · by_cases hba : b < a
      · simp [byteListLe, hba, hab] at h1
      · have hev : a = b := Nat.le_antisymm (Nat.le_of_not_lt hba) (Nat.le_of_not_lt hab)
        subst hev
        simp [byteListLe, Nat.lt_irrefl] at h1 h2
        simp [byteListLe_antisymm as bs h1 h2]

/-! ## SHA-256 (crypto-js CryptoJS.SHA256 over the raw input bytes) -/

/-- Truncation to a 32-bit word. -/
def w32 (x : Nat) : Nat := x % 4294967296

/-- Rotate a 32-bit word right by n positions. -/
def rotr (n x : Nat) : Nat := w32 ((x >>> n) ||| (x <<< (32 - n)))

/-- Logical right shift. -/
def shr (n x : Nat) : Nat := x >>> n

def sumA (x : Nat) : Nat := (rotr 2 x) ^^^ (rotr 13 x) ^^^ (rotr 22 x)

def sumE (x : Nat) : Nat := (rotr 6 x) ^^^ (rotr 11 x) ^^^ (rotr 25 x)

def sigLo (x : Nat) : Nat := (rotr 7 x) ^^^ (rotr 18 x) ^^^ (shr 3 x)

def sigHi (x : Nat) : Nat := (rotr 17 x) ^^^ (rotr 19 x) ^^^ (shr 10 x)

def chf (x y z : Nat) : Nat := (x &&& y) ^^^ ((x ^^^ 4294967295) &&& z)

def majf (x y z : Nat) : Nat := (x &&& y) ^^^ (x &&& z) ^^^ (y &&& z)

/-- The 64 round constants of SHA-256, written in decimal. -/
def K256 : List Nat :=
  [1116352408, 1899447441, 3049323471, 3921009573, 961987163, 1508970993,
   2453635748, 2870763221, 3624381080, 310598401, 607225278, 1426881987,
   1925078388, 2162078206, 2614888103, 3248222580, 3835390401, 4022224774,
   264347078, 604807628, 770255983, 1249150122, 1555081692, 1996064986,
   2554220882, 2821834349, 2952996808, 3210313671, 3336571891, 3584528711,
   113926993, 338241895, 666307205, 773529912, 1294757372, 1396182291,
   1695183700, 1986661051, 2177026350, 2456956037, 2730485921, 2820302411,
   3259730800, 3345764771, 3516065817, 3600352804, 4094571909, 275423344,
   430227734, 506948616, 659060556, 883997877, 958139571, 1322822218,
   1537002063, 1747873779, 1955562222, 2024104815, 2227730452, 2361852424,
   2428436474, 2756734187, 3204031479, 3329325298]

/-- The eight-word starting chaining value of SHA-256, in decimal. -/
def H256 : List Nat :=
  [1779033703, 3144134277, 1013904242, 2773480762,
   1359893119, 2600822924, 528734635, 1541459225]

/-- Working state of one compression: the eight 32-bit registers. -/
structure Hash8 where
  a : Nat
  b : Nat
  c : Nat
  d : Nat
  e : Nat
  f : Nat
  g : Nat
  h : Nat

/-- One SHA-256 round, consuming one (round constant, schedule word) pair. -/
def sha_round (st : Hash8) (kw : Nat × Nat) : Hash8 :=
  let t1 := w32 (st.h + sumE st.e + chf st.e st.f st.g + kw.1 + kw.2)
  let t2 := w32 (sumA st.a + majf st.a st.b st.c)
  ⟨w32 (t1 + t2), st.a, st.b, st.c, w32 (st.d + t1), st.e, st.f, st.g⟩

/-- Message-schedule extension: append the next word `n` times. -/
def extendW : Nat → List Nat → List Nat
  | 0, ws => ws
  | n + 1, ws =>
    let t := ws.length
    let wt := w32 (sigHi (ws.getD (t - 2) 0) + ws.getD (t - 7) 0 +
      sigLo (ws.getD (t - 15) 0) + ws.getD (t - 16) 0)
    extendW n (ws ++ [wt])

/-- Group bytes into big-endian 32-bit words. -/
def toWords : List Nat → List Nat
  | a :: b :: c :: d :: rest => (((a * 256 + b) * 256 + c) * 256 + d) :: toWords rest
  | _ => []

/-- One SHA-256 compression of a 16-word block into the 8-word chaining state. -/
def compress (hs : List Nat) (blockWords : List Nat) : List Nat :=
  let ws := extendW 48 blockWords
  let st0 : Hash8 := ⟨hs.getD 0 0, hs.getD 1 0, hs.getD 2 0, hs.getD 3 0,
    hs.getD 4 0, hs.getD 5 0, hs.getD 6 0, hs.getD 7 0⟩
  let st := (K256.zip ws).foldl sha_round st0
  [w32 (hs.getD 0 0 + st.a), w32 (hs.getD 1 0 + st.b), w32 (hs.getD 2 0 + st.c),
   w32 (hs.getD 3 0 + st.d), w32 (hs.getD 4 0 + st.e), w32 (hs.getD 5 0 + st.f),
   w32 (hs.getD 6 0 + st.g), w32 (hs.getD 7 0 + st.h)]

/-- Big-endian 4-byte encoding of a 32-bit word. -/
def be4 (w : Nat) : List Nat :=
  [w / 16777216 % 256, w / 65536 % 256, w / 256 % 256, w % 256]

/-- Big-endian 8-byte encoding of a 64-bit value. -/
def be8 (n : Nat) : List Nat :=
  [n / 72057594037927936 % 256, n / 281474976710656 % 256, n / 1099511627776 % 256,
   n / 4294967296 % 256, n / 16777216 % 256, n / 65536 % 256, n / 256 % 256, n % 256]

/-- SHA-256 padding: a 0x80 byte, zeros to 56 mod 64, then the bit length. -/
def padMsg (m : Bytes) : Bytes :=
  m ++ [128] ++ List.replicate ((119 - m.length % 64) % 64) 0 ++ be8 (8 * m.length)

/-- Split a byte list into 64-byte blocks (fueled to stay structural). -/
def chunks64 : Nat → Bytes → List Bytes
  | 0, _ => []
  | _, [] => []
  | fuel + 1, l => l.take 64 :: chunks64 fuel (l.drop 64)

/-- SHA-256 of a byte string, as crypto-js computes it in `sha256` of the
merkle generator (WordArray over the raw bytes, hex digest re-read as bytes:
the composition is the raw 32-byte digest). -/
def sha256 (m : Bytes) : Bytes :=
  let p := padMsg m
  let hs := (chunks64 p.length p).foldl (fun h b => compress h (toWords b)) H256
  (hs.map be4).flatten

/-- Standard SHA-256 test vector: the digest of the empty message. -/
theorem sha256_nil_vector :
    sha256 [] =
      [0xe3, 0xb0, 0xc4, 0x42, 0x98, 0xfc, 0x1c, 0x14, 0x9a, 0xfb, 0xf4, 0xc8,
       0x99, 0x6f, 0xb9, 0x24, 0x27, 0xae, 0x41, 0xe4, 0x64, 0x9b, 0x93, 0x4c,
       0xa4, 0x95, 0x99, 0x1b, 0x78, 0x52, 0xb8, 0x55] := by decide

/-- Standard SHA-256 test vector: the digest of the three bytes "abc". -/
theorem sha256_abc_vector :
    sha256 [0x61, 0x62, 0x63] =
      [0xba, 0x78, 0x16, 0xbf, 0x8f, 0x01, 0xcf, 0xea, 0x41, 0x41, 0x40, 0xde,
       0x5d, 0xae, 0x22, 0x23, 0xb0, 0x03, 0x61, 0xa3, 0x96, 0x17, 0x7a, 0x9c,
       0xb4, 0x10, 0xff, 0x61, 0xf2, 0x00, 0x15, 0xad] := by decide

/-! ## merkletreejs with sortPairs (new MerkleTree(leaves, sha256, sortPairs)) -/

/-- Sorted-pair concatenation: `[left, right].sort(Buffer.compare)` followed by
`Buffer.concat`, as merkletreejs combines a sibling pair when `sortPairs` is
set. -/
def sortPairConcat (a b : Bytes) : Bytes :=
  if byteListLe a b then a ++ b else b ++ a

/-- Combine two sibling nodes: hash of the sorted-pair concatenation. -/
def hashPair (H : Bytes → Bytes) (a b : Bytes) : Bytes :=
  H (sortPairConcat a b)

theorem sortPairConcat_comm (a b : Bytes) : sortPairConcat a b = sortPairConcat b a := by
  unfold sortPairConcat
  by_cases hab : byteListLe a b = true
  · by_cases hba : byteListLe b a = true
    · simp [hab, hba, byteListLe_antisymm a b hab hba]
    · simp [hab, hba]
  · rcases byteListLe_total a b with h | h
    · exact absurd h hab
    · simp [hab, h]

theorem hashPair_comm (H : Bytes → Bytes) (a b : Bytes) :
    hashPair H a b = hashPair H b a := by
  unfold hashPair
  rw [sortPairConcat_comm]

/-- One level of merkletreejs createHashes: hash sibling pairs at even
indices; an unpaired last node (odd node count, duplicateOdd off) is promoted
unchanged. -/
def nextLayer (H : Bytes → Bytes) : List Bytes → List Bytes
  | a :: b :: rest => hashPair H a b :: nextLayer H rest
  | l => l

/-- The layers above the leaf layer, repeating nextLayer while more than one
node remains. Fueled by the starting node count, which bounds the number of
iterations. -/
def buildAux (H : Bytes → Bytes) : Nat → List Bytes → List (List Bytes)
  | 0, _ => []
  | fuel + 1, nodes =>
    if 1 < nodes.length then
      let nl := nextLayer H nodes
      nl :: buildAux H fuel nl
    else []

/-- All layers of the tree, leaf layer first (this.layers). -/
def layersOf (H : Bytes → Bytes) (leaves : List Bytes) : List (List Bytes) :=
  leaves :: buildAux H leaves.length leaves

/-- The last layer of a layer list. -/
def lastLayer : List (List Bytes) → List Bytes
  | [] => []
  | [l] => l
  | _ :: rest => lastLayer rest

/-- tree.getRoot(): the single node of the top layer, or the empty buffer when
that layer is empty (zero leaves). -/
def getRoot (H : Bytes → Bytes) (leaves : List Bytes) : Bytes :=
  (lastLayer (layersOf H leaves)).headD []

/-- The index of the last occurrence of a leaf, as the linear scan in
merkletreejs getProof computes it (the loop overwrites the index on every
match). -/
def lastIndexOf (x : Bytes) : List Bytes → Option Nat
  | [] => none
  | a :: as =>
    match lastIndexOf x as with
    | some i => some (i + 1)
    | none => if a = x then some 0 else none

/-- Walk the layers from the given leaf index, collecting the sibling of the
current node at each layer when it exists (merkletreejs getProof: pairIndex is
index-1 for a right node, index+1 for a left node; nothing is pushed when the
pair index falls outside the layer). -/
def proofWalk : List (List Bytes) → Nat → List Bytes
  | [], _ => []
  | layer :: rest, idx =>
    let pairIndex := if idx % 2 = 1 then idx - 1 else idx + 1
    if pairIndex < layer.length then
      layer.getD pairIndex [] :: proofWalk rest (idx / 2)
    else
      proofWalk rest (idx / 2)

/-- tree.getProof(leaf): locate the leaf by scanning the leaf list, then
collect the sibling hashes walking up the layers; an absent leaf yields the
empty proof. -/
def getProof (H : Bytes → Bytes) (leaves : List Bytes) (leaf : Bytes) : List Bytes :=
  match lastIndexOf leaf leaves with
  | none => []
  | some idx => proofWalk (layersOf H leaves) idx

/-- Modelled from the spec: ProofVerifier (spec 4.3) — recombine the running
hash with each proof element by the sorted-pair rule. The authoritative
verifier is the on-chain program, which is not part of this repository; this
is the recombination rule the round-trip claims state. -/
def processProof (H : Bytes → Bytes) (leaf : Bytes) (proof : List Bytes) : Bytes :=
  proof.foldl (fun cur s => hashPair H cur s) leaf

/-- Modelled from the spec: ProofVerifier succeeds iff the recombined value
equals the root. -/
def verifyProof (H : Bytes → Bytes) (leaf : Bytes) (proof : List Bytes) (root : Bytes) : Bool :=
  processProof H leaf proof = root

/-! ## Leaf encoding (leavesData) and GenMerkleTree -/

/-- Buffer.alloc: a zero-filled buffer. -/
def bufAlloc (n : Nat) : Bytes := List.replicate n 0

/-- buf.writeUInt8(v, off): overwrite one byte. -/
def bufSetAt (buf : Bytes) (off : Nat) (v : Nat) : Bytes :=
  buf.take off ++ [v] ++ buf.drop (off + 1)

/-- buf.set(src, off): overwrite src.length bytes starting at off. -/
def bufBlit (buf : Bytes) (src : Bytes) (off : Nat) : Bytes :=
  buf.take off ++ src ++ buf.drop (off + src.length)

/-- The little-endian 8-byte encoding written by writeBigUint64LE. -/
def le8 (n : Nat) : Bytes :=
  [n % 256, n / 256 % 256, n / 65536 % 256, n / 16777216 % 256,
   n / 4294967296 % 256, n / 1099511627776 % 256, n / 281474976710656 % 256,
   n / 72057594037927936 % 256]

/-- leavesData(phase, user, amount): allocate 41 zero bytes, write the phase
byte at offset 0, the 32 key bytes at offset 1 and the amount as 8 bytes
little-endian at offset 33, and hash the result. Node buffer writers raise a
RangeError when the value does not fit the field width, so a phase above 255
or an amount of 2^64 or more is an error. -/
def leavesData (phase : Nat) (user : Bytes) (amount : Nat) : Except String Bytes :=
  if 255 < phase then .error "phase does not fit in one byte" else
  if 2 ^ 64 ≤ amount then .error "amount does not fit in 64 bits" else
  .ok (sha256 (bufBlit (bufBlit (bufSetAt (bufAlloc 41) 0 phase) user 1) (le8 amount) 33))

/-- The per-user pass of GenMerkleTree: compute each leaf hash in input order,
propagating the first error (a thrown RangeError aborts the whole batch). -/
def computeLeaves (phase : Nat) : List (Bytes × Nat) → Except String (List (Bytes × Nat × Bytes))
  | [] => .ok []
  | (k, amt) :: rest =>
    match leavesData phase k amt with
    | .error e => .error e
    | .ok l =>
      match computeLeaves phase rest with
      | .error e => .error e
      | .ok ls => .ok ((k, amt, l) :: ls)

/-- GenMerkleTree(phase, userData): hash every (recipient key, lamport amount)
entry with leavesData, build the merkletreejs tree with sortPairs over the
leaf hashes, and return the root together with, per entry, its amount and its
proof (tree.getProof on its leaf hash). The Decimal scaling of display
amounts into lamports happens before this core and is represented by the
integer amounts in userData. -/
def GenMerkleTree (phase : Nat) (userData : List (Bytes × Nat)) :
    Except String (Bytes × List (Bytes × Nat × List Bytes)) :=
  match computeLeaves phase userData with
  | .error e => .error e
  | .ok leavesL =>
    let leaves_hash := leavesL.map (fun x => x.2.2)
    .ok (getRoot sha256 leaves_hash,
      leavesL.map (fun x => (x.1, x.2.1, getProof sha256 leaves_hash x.2.2)))

/-! ## The client claim loops (contract/solana/index.ts) -/

/-- The chain state a claim call reads, for one fixed recipient and token:
whether the address lookup table of a phase resolves on-chain
(getAddressLookupTable(...).value is non-null), and whether the ClaimRecord
account at the derived (phase, recipient, token) address exists
(getAccountInfo is non-null). -/
structure ChainView where
  lookupTable : Nat → Bool
  claimRecord : Nat → Bool

/-- The two errors the claim loop throws: the lookup-table failure (Unable to
find address lookup table on-chain) and the already-claimed rejection
(Account Already claimed!). -/
inductive ClaimError where
  | lookupTableUnavailable (phase : Nat)
  | alreadyClaimed (phase : Nat)
deriving DecidableEq

/-- The phase loop of claimWithoutSignature. A transaction is modelled by the
list of phases whose claim instructions it carries; accInsts is the
instruction list of the tx object, which is created once before the loop and
accumulates an instruction per iteration. Each successful iteration compiles
and sends the accumulated list; the first thrown error (lookup table missing,
or claim record present) aborts the loop. Returns the transactions sent, in
order, and the error that ended the loop, if any. -/
def claimLoop (chain : ChainView) (accInsts : List Nat) :
    List Nat → List (List Nat) × Option ClaimError
  | [] => ([], none)
  | p :: ps =>
    if chain.lookupTable p = false then
      ([], some (.lookupTableUnavailable p))
    else if chain.claimRecord p then
      ([], some (.alreadyClaimed p))
    else
      let insts := accInsts ++ [p]
      let r := claimLoop chain insts ps
      (insts :: r.1, r.2)

/-- claimWithoutSignature: run the phase loop with the initially empty
instruction list inside try/catch; on any thrown error the function returns
null (first component none) while the transactions already sent stand (second
component). -/
def claimWithoutSignature (chain : ChainView) (phases : List Nat) :
    Option (List (List Nat)) × List (List Nat) :=
  let r := claimLoop chain [] phases
  (if r.2.isSome then none else some r.1, r.1)

/-- The phase loop of claimAirdropWithReceiver: the lookup-table failure still
throws, but an existing claim record (checkClaimed) skips the phase with
continue instead of throwing; the tx object again lives outside the loop, so
instructions accumulate across the phases actually submitted. (The second,
post-checkClaimed getAccountInfo read sees the same state in this
single-state model, so its early return is unreachable here.) -/
def claimReceiverLoop (chain : ChainView) (accInsts : List Nat) :
    List Nat → List (List Nat) × Option ClaimError
  | [] => ([], none)
  | p :: ps =>
    if chain.lookupTable p = false then
      ([], some (.lookupTableUnavailable p))
    else if chain.claimRecord p then
      claimReceiverLoop chain accInsts ps
    else
      let insts := accInsts ++ [p]
      let r := claimReceiverLoop chain insts ps
      (insts :: r.1, r.2)

/-- claimAirdropWithReceiver: run the receiver loop from the empty instruction
list; a thrown error propagates to the caller. -/
def claimAirdropWithReceiver (chain : ChainView) (phases : List Nat) :
    List (List Nat) × Option ClaimError :=
  claimReceiverLoop chain [] phases

/-- A phase passes both per-phase checks of claimWithoutSignature: its lookup
table resolves and its claim record does not exist. -/
def phaseOk (chain : ChainView) (p : Nat) : Bool :=
  chain.lookupTable p && !chain.claimRecord p

/-- The cumulative transaction list an accumulating tx object produces: one
transaction per phase, each carrying the instructions of every phase
processed so far. -/
def accTxs (acc : List Nat) : List Nat → List (List Nat)
  | [] => []
  | p :: ps => (acc ++ [p]) :: accTxs (acc ++ [p]) ps

/-! ## CreateAirdropPool -/

/-- The instructions CreateAirdropPool adds to its transaction, in order. -/
inductive PoolInst where
  | createLut
  | extendLut
  | initMerkleRoot (phase : Nat) (root : Bytes)
  | transferToVault (amount : ℚ)
deriving DecidableEq

/-- CreateAirdropPool: always add the lookup-table creation, the lookup-table
extension and the initMerkleRoot instruction; then, only when the deposit
amount is strictly greater than 1 (Decimal greaterThan), add the transfer of
depositAmount * 10 ^ tokenDecimals into the pool vault. The deposit amount is
the exact decimal value the caller passed. -/
def CreateAirdropPool (phase : Nat) (root : Bytes) (tokenDecimals : Nat)
    (depositAmount : ℚ) : List PoolInst :=
  [PoolInst.createLut, PoolInst.extendLut, PoolInst.initMerkleRoot phase root] ++
    (if 1 < depositAmount then
      [PoolInst.transferToVault (depositAmount * 10 ^ tokenDecimals)]
    else [])

/-! ## Structural lemmas about the tree -/

theorem nextLayer_length (H : Bytes → Bytes) : ∀ l : List Bytes,
    (nextLayer H l).length = (l.length + 1) / 2
  | [] => by simp [nextLayer]
  | [_] => by simp [nextLayer]
  | _ :: _ :: rest => by
    simp [nextLayer, nextLayer_length H rest]
    omega

theorem nextLayer_getD_pair (H : Bytes → Bytes) : ∀ (l : List Bytes) (j : Nat),
    2 * j + 1 < l.length →
    (nextLayer H l).getD j [] = hashPair H (l.getD (2 * j) []) (l.getD (2 * j + 1) [])
  | [], j, h => by simp at h
  | [_], j, h => by simp at h
  | a :: b :: rest, 0, _ => by
    rw [show nextLayer H (a :: b :: rest) = hashPair H a b :: nextLayer H rest from rfl]
    rfl
  | a :: b :: rest, j + 1, h => by
    have hr : 2 * j + 1 < rest.length := by
      simp only [List.length_cons] at h; omega
    have ih := nextLayer_getD_pair H rest j hr
    rw [show nextLayer H (a :: b :: rest) = hashPair H a b :: nextLayer H rest from rfl]
    rw [show 2 * (j + 1) = 2 * j + 1 + 1 from by omega]
    rw [show 2 * j + 1 + 1 + 1 = 2 * j + 1 + 1 + 1 from rfl]
    simp only [List.getD_cons_succ]
    exact ih

theorem nextLayer_getD_last (H : Bytes → Bytes) : ∀ (l : List Bytes) (j : Nat),
    2 * j < l.length → l.length ≤ 2 * j + 1 →
    (nextLayer H l).getD j [] = l.getD (2 * j) []
  | [], j, h, _ => by simp at h
  | [x], j, h, _ => by
    have : j = 0 := by simp at h; omega
    subst this
    rfl
  | a :: b :: rest, 0, _, h2 => by simp at h2
  | a :: b :: rest, j + 1, h1, h2 => by
    have hr1 : 2 * j < rest.length := by
      simp only [List.length_cons] at h1; omega
    have hr2 : rest.length ≤ 2 * j + 1 := by
      simp only [List.length_cons] at h2; omega
    have ih := nextLayer_getD_last H rest j hr1 hr2
    rw [show nextLayer H (a :: b :: rest) = hashPair H a b :: nextLayer H rest from rfl]
    rw [show 2 * (j + 1) = 2 * j + 1 + 1 from by omega]
    simp only [List.getD_cons_succ]
    exact ih

/-- One-step unfolding of proofWalk on a cons of layers. -/
theorem proofWalk_cons (layer : List Bytes) (rest : List (List Bytes)) (idx : Nat) :
    proofWalk (layer :: rest) idx =
      if (if idx % 2 = 1 then idx - 1 else idx + 1) < layer.length then
        layer.getD (if idx % 2 = 1 then idx - 1 else idx + 1) [] :: proofWalk rest (idx / 2)
      else proofWalk rest (idx / 2) := rfl

/-- Folding one proof element is one sorted-pair combination. -/
theorem processProof_cons (H : Bytes → Bytes) (x s : Bytes) (pf : List Bytes) :
    processProof H x (s :: pf) = processProof H (hashPair H x s) pf := rfl

/-- Recombining a leaf with the sibling walk collected from the layers yields
the single node of the top layer: the inductive heart of the round trip. -/
theorem walk_to_root (H : Bytes → Bytes) : ∀ (fuel : Nat) (nodes : List Bytes) (idx : Nat),
    nodes.length ≤ fuel → idx < nodes.length →
    processProof H (nodes.getD idx []) (proofWalk (nodes :: buildAux H fuel nodes) idx) =
      (lastLayer (nodes :: buildAux H fuel nodes)).headD [] := by
  intro fuel
  induction fuel with
  | zero =>
    intro nodes idx hf hi
    omega
  | succ fuel ih =>
    intro nodes idx hf hi
    by_cases h1 : 1 < nodes.length
    · rw [show buildAux H (fuel + 1) nodes =
          nextLayer H nodes :: buildAux H fuel (nextLayer H nodes) from by
        rw [buildAux]; simp [h1]]
      have hlen : (nextLayer H nodes).length = (nodes.length + 1) / 2 :=
        nextLayer_length H nodes
      have hfit : (nextLayer H nodes).length ≤ fuel := by omega
      have hidx : idx / 2 < (nextLayer H nodes).length := by omega
      have ihh := ih (nextLayer H nodes) (idx / 2) hfit hidx
      rw [show lastLayer (nodes :: nextLayer H nodes :: buildAux H fuel (nextLayer H nodes)) =
          lastLayer (nextLayer H nodes :: buildAux H fuel (nextLayer H nodes)) from rfl]
      rw [← ihh]
      rw [proofWalk_cons]
      by_cases hodd : idx % 2 = 1
      · rw [if_pos hodd]
        have hp : idx - 1 < nodes.length := by omega
        rw [if_pos hp, processProof_cons]
        have hpair := nextLayer_getD_pair H nodes (idx / 2) (by omega)
        rw [show 2 * (idx / 2) + 1 = idx from by omega,
            show 2 * (idx / 2) = idx - 1 from by omega] at hpair
        rw [hpair, hashPair_comm]
      · rw [if_neg hodd]
        by_cases hp : idx + 1 < nodes.length
        · rw [if_pos hp, processProof_cons]
          have hpair := nextLayer_getD_pair H nodes (idx / 2) (by omega)
          rw [show 2 * (idx / 2) + 1 = idx + 1 from by omega,
              show 2 * (idx / 2) = idx from by omega] at hpair
          rw [hpair]
        · rw [if_neg hp]
          have hlast := nextLayer_getD_last H nodes (idx / 2) (by omega) (by omega)
          rw [show 2 * (idx / 2) = idx from by omega] at hlast
          rw [hlast]
    · have hlen1 : nodes.length = 1 := by omega
      have hidx0 : idx = 0 := by omega
      subst hidx0
      match nodes, hlen1 with
      | [x], _ =>
        rfl

theorem lastIndexOf_mem : ∀ (l : List Bytes) (x : Bytes), x ∈ l → ∃ i, lastIndexOf x l = some i
  | [], x, h => absurd h (List.not_mem_nil x)
  | a :: as, x, h => by
    cases hm : lastIndexOf x as with
    | some i => exact ⟨i + 1, by simp [lastIndexOf, hm]⟩
    | none =>
      rcases List.mem_cons.mp h with rfl | hin
      · exact ⟨0, by simp [lastIndexOf, hm]⟩
      · obtain ⟨i, hi⟩ := lastIndexOf_mem as x hin
        rw [hi] at hm
        cases hm

theorem lastIndexOf_spec : ∀ (l : List Bytes) (x : Bytes) (i : Nat),
    lastIndexOf x l = some i → i < l.length ∧ l.getD i [] = x
  | [], x, i, h => by simp [lastIndexOf] at h
  | a :: as, x, i, h => by
    cases hm : lastIndexOf x as with
    | some j =>
      simp only [lastIndexOf, hm] at h
      obtain rfl : j + 1 = i := by injection h
      obtain ⟨h1, h2⟩ := lastIndexOf_spec as x j hm
      refine ⟨by simp; omega, ?_⟩
      simpa using h2
    | none =>
      simp only [lastIndexOf, hm] at h
      by_cases hax : a = x
      · simp only [if_pos hax] at h
        obtain rfl : 0 = i := by injection h
        exact ⟨by simp, hax⟩
      · simp [hax] at h

/-- Round trip at the tree level: the proof returned for any present leaf
recombines to the root. -/
theorem getProof_verify (H : Bytes → Bytes) (leaves : List Bytes) (leaf : Bytes)
    (h : leaf ∈ leaves) :
    processProof H leaf (getProof H leaves leaf) = getRoot H leaves := by
  obtain ⟨i, hi⟩ := lastIndexOf_mem leaves leaf h
  obtain ⟨hlt, hget⟩ := lastIndexOf_spec leaves leaf i hi
  simp only [getProof, getRoot, layersOf, hi]
  rw [← hget]
  exact walk_to_root H leaves.length leaves i le_rfl hlt

/-- One level is invariant under swapping the two nodes of a pair that starts
at an even index: the sorted-pair combination does not depend on the order of
the two children. -/
theorem nextLayer_swap (H : Bytes → Bytes) : ∀ (pre : List Bytes) (a b : Bytes) (suf : List Bytes),
    pre.length % 2 = 0 →
    nextLayer H (pre ++ a :: b :: suf) = nextLayer H (pre ++ b :: a :: suf)
  | [], a, b, suf, _ => by
    rw [List.nil_append, List.nil_append,
      show nextLayer H (a :: b :: suf) = hashPair H a b :: nextLayer H suf from rfl,
      show nextLayer H (b :: a :: suf) = hashPair H b a :: nextLayer H suf from rfl,
      hashPair_comm]
  | [_], _, _, _, h => by simp at h
  | x :: y :: pre, a, b, suf, h => by
    have hp : pre.length % 2 = 0 := by simp at h; omega
    rw [List.cons_append, List.cons_append, List.cons_append, List.cons_append,
      show nextLayer H (x :: y :: (pre ++ a :: b :: suf)) =
        hashPair H x y :: nextLayer H (pre ++ a :: b :: suf) from rfl,
      show nextLayer H (x :: y :: (pre ++ b :: a :: suf)) =
        hashPair H x y :: nextLayer H (pre ++ b :: a :: suf) from rfl,
      nextLayer_swap H pre a b suf hp]

/-- The root is invariant under swapping the two leaves of a leaf-level pair. -/
theorem getRoot_swap (H : Bytes → Bytes) (pre : List Bytes) (a b : Bytes) (suf : List Bytes)
    (h : pre.length % 2 = 0) :
    getRoot H (pre ++ a :: b :: suf) = getRoot H (pre ++ b :: a :: suf) := by
  have hswap := nextLayer_swap H pre a b suf h
  have h2 : 1 < (pre ++ a :: b :: suf).length := by
    simp only [List.length_append, List.length_cons]; omega
  have h2' : 1 < (pre ++ b :: a :: suf).length := by
    simp only [List.length_append, List.length_cons]; omega
  have hlen : (pre ++ b :: a :: suf).length = (pre ++ a :: b :: suf).length := by simp
  unfold getRoot layersOf
  rw [hlen]
  obtain ⟨m, hm⟩ : ∃ m, (pre ++ a :: b :: suf).length = m + 1 :=
    ⟨(pre ++ a :: b :: suf).length - 1, by omega⟩
  rw [hm]
  rw [show buildAux H (m + 1) (pre ++ a :: b :: suf) =
      nextLayer H (pre ++ a :: b :: suf) ::
        buildAux H m (nextLayer H (pre ++ a :: b :: suf)) from by
    rw [buildAux, if_pos h2]]
  rw [show buildAux H (m + 1) (pre ++ b :: a :: suf) =
      nextLayer H (pre ++ b :: a :: suf) ::
        buildAux H m (nextLayer H (pre ++ b :: a :: suf)) from by
    rw [buildAux, if_pos h2']]
  rw [← hswap]
  rfl

/-- Every entry of a successful computeLeaves carries the leavesData hash of
its own key and amount. -/
theorem computeLeaves_mem (phase : Nat) : ∀ (ud : List (Bytes × Nat)) (out : List (Bytes × Nat × Bytes)),
    computeLeaves phase ud = .ok out →
    ∀ e ∈ out, leavesData phase e.1 e.2.1 = .ok e.2.2
  | [], out, h => by
    simp only [computeLeaves] at h
    obtain rfl : ([] : List (Bytes × Nat × Bytes)) = out := by injection h
    intro e he
    simp at he
  | (k, amt) :: rest, out, h => by
    rw [computeLeaves] at h
    split at h
    · cases h
    · rename_i l hl
      split at h
      · cases h
      · rename_i ls hr
        obtain rfl : (k, amt, l) :: ls = out := by injection h
        intro e he
        rcases List.mem_cons.mp he with rfl | hin
        · exact hl
        · exact computeLeaves_mem phase rest ls hr e hin

/-! ## Digest and preimage shape -/

theorem compress_length (hs bw : List Nat) : (compress hs bw).length = 8 := rfl

theorem foldl_compress_length : ∀ (bs : List Bytes) (hs : List Nat), hs.length = 8 →
    (bs.foldl (fun h b => compress h (toWords b)) hs).length = 8
  | [], _, h => h
  | b :: bs, hs, _ =>
    foldl_compress_length bs (compress hs (toWords b)) (compress_length hs (toWords b))

theorem flatten_map_be4_length : ∀ hs : List Nat, ((hs.map be4).flatten).length = 4 * hs.length
  | [] => rfl
  | w :: hs => by
    simp only [List.map_cons, List.flatten_cons, List.length_append, List.length_cons,
      flatten_map_be4_length hs, be4, List.length_nil]
    omega

/-- SHA-256 always produces a 32-byte digest. -/
theorem sha256_length (m : Bytes) : (sha256 m).length = 32 := by
  show ((((chunks64 (padMsg m).length (padMsg m)).foldl
    (fun h b => compress h (toWords b)) H256).map be4).flatten).length = 32
  rw [flatten_map_be4_length, foldl_compress_length _ H256 rfl]

/-- The buffer writes of leavesData produce exactly the 41-byte preimage
phase byte, then the key bytes, then the 8-byte little-endian amount. -/
theorem leavesData_preimage (phase : Nat) (user : Bytes) (amount : Nat)
    (hu : user.length = 32) :
    bufBlit (bufBlit (bufSetAt (bufAlloc 41) 0 phase) user 1) (le8 amount) 33 =
      phase :: (user ++ le8 amount) := by
  have h1 : bufSetAt (bufAlloc 41) 0 phase = phase :: bufAlloc 40 := rfl
  have h2 : bufBlit (phase :: bufAlloc 40) user 1 = (phase :: user) ++ bufAlloc 8 := by
    unfold bufBlit
    rw [hu]
    rfl
  have h3 : bufBlit ((phase :: user) ++ bufAlloc 8) (le8 amount) 33 =
      phase :: (user ++ le8 amount) := by
    unfold bufBlit
    rw [show (le8 amount).length = 8 from rfl]
    rw [List.take_left' (by simp [hu])]
    rw [List.drop_eq_nil_of_le (by simp [hu, bufAlloc])]
    simp
  rw [h1, h2, h3]

/-! ## Behaviour of the claim loops -/

theorem bool_true_of_not_false {b : Bool} (h : ¬ b = false) : b = true := by
  cases b
  · exact absurd rfl h
  · rfl

theorem bool_false_of_not_true {b : Bool} (h : ¬ b = true) : b = false := by
  cases b
  · rfl
  · exact absurd rfl h

/-- The error the phase loop ends with: the failure of the first phase that
fails a check, if any. -/
def firstErr (chain : ChainView) : List Nat → Option ClaimError
  | [] => none
  | p :: ps =>
    if chain.lookupTable p = false then some (.lookupTableUnavailable p)
    else if chain.claimRecord p then some (.alreadyClaimed p)
    else firstErr chain ps

/-- Full characterization of the claimWithoutSignature loop: the transactions
sent are the cumulative instruction lists over the maximal prefix of phases
passing both checks, and the loop ends with the first failing check. -/
theorem claimLoop_eq (chain : ChainView) : ∀ (phases acc : List Nat),
    claimLoop chain acc phases =
      (accTxs acc (phases.takeWhile (phaseOk chain)), firstErr chain phases)
  | [], acc => rfl
  | p :: ps, acc => by
    rw [claimLoop, firstErr]
    by_cases hl : chain.lookupTable p = false
    · rw [if_pos hl, if_pos hl]
      have hok : phaseOk chain p = false := by simp [phaseOk, hl]
      rw [List.takeWhile_cons, hok]
      rfl
    · rw [if_neg hl, if_neg hl]
      have hl' : chain.lookupTable p = true := bool_true_of_not_false hl
      by_cases hc : chain.claimRecord p
      · rw [if_pos hc, if_pos hc]
        have hok : phaseOk chain p = false := by simp [phaseOk, hc]
        rw [List.takeWhile_cons, hok]
        rfl
      · rw [if_neg hc, if_neg hc]
        have hc' : chain.claimRecord p = false := bool_false_of_not_true hc
        have hok : phaseOk chain p = true := by simp [phaseOk, hl', hc']
        rw [List.takeWhile_cons, hok]
        show ((acc ++ [p]) :: (claimLoop chain (acc ++ [p]) ps).1,
          (claimLoop chain (acc ++ [p]) ps).2) = _
        rw [claimLoop_eq chain ps (acc ++ [p])]
        rfl

/-- Characterization of the claimAirdropWithReceiver loop: phases are
processed up to the first lookup-table failure; among those, already-claimed
phases are skipped and the rest are sent cumulatively. -/
theorem claimReceiverLoop_eq (chain : ChainView) : ∀ (phases acc : List Nat),
    (claimReceiverLoop chain acc phases).1 =
      accTxs acc (((phases.takeWhile (fun p => chain.lookupTable p))).filter
        (fun p => !chain.claimRecord p))
  | [], acc => rfl
  | p :: ps, acc => by
    rw [claimReceiverLoop]
    by_cases hl : chain.lookupTable p = false
    · rw [if_pos hl]
      rw [List.takeWhile_cons, hl]
      rfl
    · rw [if_neg hl]
      have hl' : chain.lookupTable p = true := bool_true_of_not_false hl
      rw [List.takeWhile_cons, hl', if_pos rfl]
      by_cases hc : chain.claimRecord p
      · rw [if_pos hc]
        have : (!chain.claimRecord p) = false := by simp [hc]
        rw [List.filter_cons, this]
        simp only [Bool.false_eq_true, if_neg]
        exact claimReceiverLoop_eq chain ps acc
      · rw [if_neg hc]
        have hc' : chain.claimRecord p = false := bool_false_of_not_true hc
        have : (!chain.claimRecord p) = true := by simp [hc']
        rw [List.filter_cons, this]
        show ((acc ++ [p]) :: (claimReceiverLoop chain (acc ++ [p]) ps).1) = _
        rw [claimReceiverLoop_eq chain ps (acc ++ [p])]
        rfl

/-- Every instruction of every transaction the loop sends belongs to a phase
that passed both per-phase checks, unless it was already present in the
starting instruction list. -/
theorem claimLoop_sent_ok (chain : ChainView) : ∀ (phases acc : List Nat)
    (tx : List Nat), tx ∈ (claimLoop chain acc phases).1 → ∀ q ∈ tx,
    q ∈ acc ∨ (chain.lookupTable q = true ∧ chain.claimRecord q = false)
  | [], acc, tx, htx => by simp [claimLoop] at htx
  | p :: ps, acc, tx, htx => by
    rw [claimLoop] at htx
    by_cases hl : chain.lookupTable p = false
    · rw [if_pos hl] at htx
      simp at htx
    · rw [if_neg hl] at htx
      by_cases hc : chain.claimRecord p
      · rw [if_pos hc] at htx
        simp at htx
      · rw [if_neg hc] at htx
        have hpok : chain.lookupTable p = true ∧ chain.claimRecord p = false :=
          ⟨bool_true_of_not_false hl, bool_false_of_not_true hc⟩
        intro q hq
        rcases List.mem_cons.mp htx with rfl | hin
        · rcases List.mem_append.mp hq with h | h
          · exact Or.inl h
          · have hqp : q = p := by simpa using h
            subst hqp
            exact Or.inr hpok
        · rcases claimLoop_sent_ok chain ps (acc ++ [p]) tx hin q hq with h | h
          · rcases List.mem_append.mp h with h' | h'
            · exact Or.inl h'
            · have hqp : q = p := by simpa using h'
              subst hqp
              exact Or.inr hpok
          · exact Or.inr h

/-- A phase whose lookup table does not resolve ends the loop at once with the
lookup-table error, sending nothing. -/
theorem claimLoop_head_noLut (chain : ChainView) (p : Nat) (ps acc : List Nat)
    (hl : chain.lookupTable p = false) :
    claimLoop chain acc (p :: ps) = ([], some (.lookupTableUnavailable p)) := by
  rw [claimLoop, if_pos hl]

/-- A phase whose claim record exists (and whose lookup table resolves) ends
the loop at once with the already-claimed error, sending nothing. -/
theorem claimLoop_head_already (chain : ChainView) (p : Nat) (ps acc : List Nat)
    (hl : chain.lookupTable p = true) (hc : chain.claimRecord p = true) :
    claimLoop chain acc (p :: ps) = ([], some (.alreadyClaimed p)) := by
  rw [claimLoop, if_neg (by simp [hl]), if_pos hc]

/-! ## The claims -/

/-- C1: Round trip — for every non-empty collection of (recipient, amount)
entries given to GenMerkleTree at a phase, every returned entry carries a
proof whose step-by-step sorted-pair recombination with the leavesData leaf
hash of that entry yields exactly the returned root, i.e. proof verification
succeeds. -/
theorem C1_round_trip (phase : Nat) (userData : List (Bytes × Nat))
    (root : Bytes) (proofs : List (Bytes × Nat × List Bytes))
    (hne : userData ≠ [])
    (hok : GenMerkleTree phase userData = .ok (root, proofs)) :
    ∀ e ∈ proofs, ∃ l, leavesData phase e.1 e.2.1 = .ok l ∧
      verifyProof sha256 l e.2.2 root = true := by
  rw [GenMerkleTree] at hok
  split at hok
  · cases hok
  · rename_i leavesL hcl
    injection hok with hpair
    have hroot : getRoot sha256 (leavesL.map fun x => x.2.2) = root :=
      congrArg Prod.fst hpair
    have hproofs : leavesL.map (fun x =>
        (x.1, x.2.1, getProof sha256 (leavesL.map fun y => y.2.2) x.2.2)) = proofs :=
      congrArg Prod.snd hpair
    subst hroot
    subst hproofs
    intro e he
    obtain ⟨x, hx, rfl⟩ := List.mem_map.mp he
    refine ⟨x.2.2, ?_, ?_⟩
    · exact computeLeaves_mem phase userData leavesL hcl x hx
    · have hmem : x.2.2 ∈ leavesL.map (fun y => y.2.2) := List.mem_map_of_mem _ hx
      have hv := getProof_verify sha256 (leavesL.map fun y => y.2.2) x.2.2 hmem
      simp [verifyProof, hv]

/-- C1 witness: the round trip at a concrete two-entry collection. -/
theorem C1_round_trip_witness :
    ∃ root proofs,
      GenMerkleTree 1 [(List.replicate 32 1, 5), (List.replicate 32 2, 7)] =
        .ok (root, proofs) ∧
      ∀ e ∈ proofs, ∃ l, leavesData 1 e.1 e.2.1 = .ok l ∧
        verifyProof sha256 l e.2.2 root = true := by
  obtain ⟨root, proofs, hok⟩ :
      ∃ root proofs, GenMerkleTree 1 [(List.replicate 32 1, 5), (List.replicate 32 2, 7)] =
        .ok (root, proofs) := ⟨_, _, rfl⟩
  exact ⟨root, proofs, hok,
    C1_round_trip 1 [(List.replicate 32 1, 5), (List.replicate 32 2, 7)] root proofs
      (by decide) hok⟩

/-- C4: Leaf encoding — for every phase in 1..255, every 32-byte recipient
key and every amount below 2^64, the leaf value is the SHA-256 of the 41-byte
preimage laid out as the phase in one byte, the 32 key bytes, then the amount
in 8 bytes little-endian, in that order. -/
theorem C4_leaf_encoding (phase : Nat) (user : Bytes) (amount : Nat)
    (h1 : 1 ≤ phase) (h2 : phase ≤ 255) (hu : user.length = 32) (ha : amount < 2 ^ 64) :
    leavesData phase user amount = .ok (sha256 (phase :: (user ++ le8 amount))) ∧
      (phase :: (user ++ le8 amount)).length = 41 := by
  constructor
  · rw [leavesData, if_neg (by omega), if_neg (Nat.not_le.mpr ha),
      leavesData_preimage phase user amount hu]
  · simp [le8, hu]

/-- C4 witness: the encoding at a concrete phase, key and amount. -/
theorem C4_leaf_encoding_witness :
    leavesData 1 (List.replicate 32 0) 5 =
      .ok (sha256 (1 :: (List.replicate 32 0 ++ le8 5))) ∧
      ((1 : Nat) :: (List.replicate 32 0 ++ le8 5)).length = 41 :=
  C4_leaf_encoding 1 (List.replicate 32 0) 5 (by decide) (by decide) (by decide) (by decide)

/-- C8: leavesData rejects any amount that does not fit in 64 bits, and under
phase at most 255 and amount below 2^64 it has no error path and returns a
32-byte hash. -/
theorem C8_amount_overflow (phase : Nat) (user : Bytes) (amount : Nat)
    (hp : phase ≤ 255) :
    (2 ^ 64 ≤ amount → ∃ e, leavesData phase user amount = .error e) ∧
      (amount < 2 ^ 64 → ∃ h, leavesData phase user amount = .ok h ∧ h.length = 32) := by
  constructor
  · intro hov
    exact ⟨"amount does not fit in 64 bits", by
      rw [leavesData, if_neg (by omega), if_pos hov]⟩
  · intro ha
    exact ⟨_, by rw [leavesData, if_neg (by omega), if_neg (Nat.not_le.mpr ha)],
      sha256_length _⟩

/-- C8 witness: the overflow rejection at exactly 2^64 and the 32-byte success
just below it. -/
theorem C8_amount_overflow_witness :
    (∃ e, leavesData 1 (List.replicate 32 0) (2 ^ 64) = .error e) ∧
      (∃ h, leavesData 1 (List.replicate 32 0) 5 = .ok h ∧ h.length = 32) :=
  ⟨(C8_amount_overflow 1 (List.replicate 32 0) (2 ^ 64) (by decide)).1 (le_refl _),
   (C8_amount_overflow 1 (List.replicate 32 0) 5 (by decide)).2 (by decide)⟩

/-- C9: Single-leaf tree — GenMerkleTree over exactly one entry returns that
entry's leavesData hash as the root and the empty list as its proof. -/
theorem C9_single_leaf (phase : Nat) (key : Bytes) (amount : Nat)
    (hp : phase ≤ 255) (ha : amount < 2 ^ 64) :
    ∃ l, leavesData phase key amount = .ok l ∧
      GenMerkleTree phase [(key, amount)] = .ok (l, [(key, amount, [])]) := by
  have hld : leavesData phase key amount =
      .ok (sha256 (bufBlit (bufBlit (bufSetAt (bufAlloc 41) 0 phase) key 1)
        (le8 amount) 33)) := by
    rw [leavesData, if_neg (by omega), if_neg (Nat.not_le.mpr ha)]
  set L := sha256 (bufBlit (bufBlit (bufSetAt (bufAlloc 41) 0 phase) key 1)
    (le8 amount) 33) with hL
  have hcl : computeLeaves phase [(key, amount)] = .ok [(key, amount, L)] := by
    simp only [computeLeaves, hld]
  have hfind : lastIndexOf L [L] = some 0 := by
    simp [lastIndexOf]
  have hgp : getProof sha256 [L] L = [] := by
    simp only [getProof, hfind]
    rfl
  refine ⟨L, hld, ?_⟩
  simp only [GenMerkleTree, hcl, List.map_cons, List.map_nil]
  rw [show getRoot sha256 [L] = L from rfl, hgp]

/-- C9 witness: the single-leaf tree at a concrete key and amount. -/
theorem C9_single_leaf_witness :
    ∃ l, leavesData 1 (List.replicate 32 3) 9 = .ok l ∧
      GenMerkleTree 1 [(List.replicate 32 3, 9)] = .ok (l, [(List.replicate 32 3, 9, [])]) :=
  C9_single_leaf 1 (List.replicate 32 3) 9 (by decide) (by decide)

/-- C2: if the ClaimRecord at the derived (phase, recipient, token) address
already exists, claimWithoutSignature never submits a transaction carrying
that phase, and when the loop reaches the phase (its lookup table resolving)
it stops with the distinguishable already-claimed outcome; the client never
writes the record, so the existing record is not overwritten and no second
transfer can be submitted. -/
theorem C2_already_claimed (chain : ChainView) (p : Nat)
    (hrec : chain.claimRecord p = true) :
    (∀ phases, ∀ tx ∈ (claimWithoutSignature chain phases).2, p ∉ tx) ∧
      (chain.lookupTable p = true →
        ∀ acc ps, claimLoop chain acc (p :: ps) =
          ([], some (.alreadyClaimed p))) := by
  constructor
  · intro phases tx htx hq
    rcases claimLoop_sent_ok chain phases [] tx htx p hq with h | h
    · simp at h
    · rw [hrec] at h
      cases h.2
  · intro hl acc ps
    exact claimLoop_head_already chain p ps acc hl hrec

/-- C2 witness: the guard at a concrete chain state with the record present. -/
theorem C2_already_claimed_witness :
    (∀ phases, ∀ tx ∈ (claimWithoutSignature ⟨fun _ => true, fun _ => true⟩ phases).2,
      3 ∉ tx) ∧
      ((⟨fun _ => true, fun _ => true⟩ : ChainView).lookupTable 3 = true →
        ∀ acc ps, claimLoop ⟨fun _ => true, fun _ => true⟩ acc (3 :: ps) =
          ([], some (.alreadyClaimed 3))) :=
  C2_already_claimed ⟨fun _ => true, fun _ => true⟩ 3 rfl

set_option maxRecDepth 4000 in
/-- C3 counterexample: with both phases claimable, the transaction sent for
phase 2 also carries the instruction of phase 1 (the tx object accumulates,
so a phase is not submitted as its own transaction), and with phase 1 already
claimed, the thrown rejection aborts the loop so phase 2 is never submitted
and the call returns null. -/
theorem C3_multi_phase_cex :
    (claimWithoutSignature ⟨fun _ => true, fun _ => false⟩ [1, 2]).2 = [[1], [1, 2]] ∧
      claimWithoutSignature ⟨fun _ => true, fun p => p == 1⟩ [1, 2] = (none, []) :=
  ⟨rfl, rfl⟩

/-- C3 (amended): one sendTransaction call is made per successfully processed
phase, but each transaction carries the claim instructions of every phase
processed so far; in claimWithoutSignature the first failing phase (lookup
table unavailable or already claimed) throws and blocks all later phases,
while already-sent transactions stand; in claimAirdropWithReceiver an
already-claimed phase is skipped without blocking later phases, though a
lookup-table failure still blocks the rest. -/
theorem C3_multi_phase_amended (chain : ChainView) (phases : List Nat) :
    (claimWithoutSignature chain phases).2 = accTxs [] (phases.takeWhile (phaseOk chain)) ∧
      ((claimWithoutSignature chain phases).1 = none ↔ (firstErr chain phases).isSome) ∧
      (claimAirdropWithReceiver chain phases).1 =
        accTxs [] ((phases.takeWhile (fun p => chain.lookupTable p)).filter
          (fun p => !chain.claimRecord p)) := by
  refine ⟨?_, ?_, ?_⟩
  · show (claimLoop chain [] phases).1 = _
    rw [claimLoop_eq]
  · show (if (claimLoop chain [] phases).2.isSome then none
        else some (claimLoop chain [] phases).1) = none ↔ _
    rw [claimLoop_eq]
    by_cases h : (firstErr chain phases).isSome
    · simp [h]
    · simp [h]
  · exact claimReceiverLoop_eq chain phases []

set_option maxRecDepth 100000 in
/-- C5 counterexample: permuting a concrete three-leaf collection across the
pair boundary changes the root, so building over the permuted collection does
not yield the same root and the original proofs cannot all verify against it. -/
theorem C5_order_dependence_cex :
    getRoot sha256
        [sha256 (1 :: (List.replicate 32 1 ++ le8 100)),
         sha256 (1 :: (List.replicate 32 2 ++ le8 200)),
         sha256 (1 :: (List.replicate 32 3 ++ le8 300))] ≠
      getRoot sha256
        [sha256 (1 :: (List.replicate 32 1 ++ le8 100)),
         sha256 (1 :: (List.replicate 32 3 ++ le8 300)),
         sha256 (1 :: (List.replicate 32 2 ++ le8 200))] := by
  decide

/-- C5 (amended): order independence holds for the order inside a sibling
pair — swapping the two leaves of a leaf-level pair preserves the root, and
every leaf of the swapped collection still verifies against it — but not for
arbitrary permutations of the collection. -/
theorem C5_pair_swap_invariance (pre suf : List Bytes) (a b : Bytes)
    (hpre : pre.length % 2 = 0) :
    getRoot sha256 (pre ++ a :: b :: suf) = getRoot sha256 (pre ++ b :: a :: suf) ∧
      ∀ leaf ∈ pre ++ b :: a :: suf,
        verifyProof sha256 leaf (getProof sha256 (pre ++ b :: a :: suf) leaf)
          (getRoot sha256 (pre ++ a :: b :: suf)) = true := by
  have hswap := getRoot_swap sha256 pre a b suf hpre
  refine ⟨hswap, ?_⟩
  intro leaf hmem
  have hv := getProof_verify sha256 (pre ++ b :: a :: suf) leaf hmem
  rw [hswap]
  simp [verifyProof, hv]

/-- C5 witness: the swap invariance at a concrete three-leaf collection. -/
theorem C5_pair_swap_invariance_witness :
    getRoot sha256 ([] ++ [1] :: [2] :: [[3]]) = getRoot sha256 ([] ++ [2] :: [1] :: [[3]]) ∧
      ∀ leaf ∈ ([] ++ [2] :: [1] :: [[3]] : List Bytes),
        verifyProof sha256 leaf (getProof sha256 ([] ++ [2] :: [1] :: [[3]]) leaf)
          (getRoot sha256 ([] ++ [1] :: [2] :: [[3]])) = true :=
  C5_pair_swap_invariance [] [[3]] [1] [2] (by decide)

/-- C6 counterexample: building over the empty recipient set is not rejected:
GenMerkleTree succeeds, with the empty root and no proofs. -/
theorem C6_empty_not_rejected_cex : GenMerkleTree 1 [] = .ok ([], []) := rfl

/-- C6 (amended): for every phase, the zero-leaf build returns success with a
zero-byte root and an empty proof map instead of failing with an error. -/
theorem C6_empty_build (phase : Nat) : GenMerkleTree phase [] = .ok ([], []) := rfl

/-- C7: lookup-table fail-fast — when the lookup table of a phase does not
resolve on-chain, no transaction carrying that phase is ever submitted, and
the loop stops at that phase with the distinct lookup-table-unavailable error
before building or sending anything for it; there is no fallback path that
submits a raw uncompressed address list. -/
theorem C7_lookup_table_fail_fast (chain : ChainView) (p : Nat)
    (hlut : chain.lookupTable p = false) :
    (∀ phases, ∀ tx ∈ (claimWithoutSignature chain phases).2, p ∉ tx) ∧
      (∀ acc ps, claimLoop chain acc (p :: ps) =
        ([], some (.lookupTableUnavailable p))) := by
  constructor
  · intro phases tx htx hq
    rcases claimLoop_sent_ok chain phases [] tx htx p hq with h | h
    · simp at h
    · rw [hlut] at h
      cases h.1
  · intro acc ps
    exact claimLoop_head_noLut chain p ps acc hlut

/-- C7 witness: the fail-fast at a concrete chain with no lookup table. -/
theorem C7_lookup_table_fail_fast_witness :
    (∀ phases, ∀ tx ∈ (claimWithoutSignature ⟨fun _ => false, fun _ => false⟩ phases).2,
      2 ∉ tx) ∧
      (∀ acc ps, claimLoop ⟨fun _ => false, fun _ => false⟩ acc (2 :: ps) =
        ([], some (.lookupTableUnavailable 2))) :=
  C7_lookup_table_fail_fast ⟨fun _ => false, fun _ => false⟩ 2 rfl

/-- C10: CreateAirdropPool adds the vault-funding transfer instruction iff
the deposit amount is strictly greater than 1; for any deposit amount up to
and including 1, the pool and lookup-table instructions are still produced
and no transfer instruction and no error are. -/
theorem C10_deposit_threshold (phase : Nat) (root : Bytes) (tokenDecimals : Nat) (d : ℚ) :
    ((∃ amt, PoolInst.transferToVault amt ∈ CreateAirdropPool phase root tokenDecimals d) ↔
        1 < d) ∧
      (d ≤ 1 → CreateAirdropPool phase root tokenDecimals d =
        [PoolInst.createLut, PoolInst.extendLut, PoolInst.initMerkleRoot phase root]) := by
  constructor
  · constructor
    · rintro ⟨amt, hmem⟩
      by_contra hle
      rw [CreateAirdropPool, if_neg hle] at hmem
      simp at hmem
    · intro h
      refine ⟨d * 10 ^ tokenDecimals, ?_⟩
      rw [CreateAirdropPool, if_pos h]
      simp
  · intro h
    rw [CreateAirdropPool, if_neg (not_lt.mpr h)]
    rfl

end Airdrop
